import Mathlib

/-!
Verification development for the attendance-transformer application
(`src/app.py`).  The Python source manipulates pandas data frames; here a
data frame is embedded as a `Table` (ordered column names plus row-major
cell lists).  The fuzzy column matcher (`rapidfuzz`'s
`fuzz.token_sort_ratio` together with `process.extractOne`) is embedded
from the documented semantics of that library: the token-sort ratio is
`100 * (1 - indel_distance / (len a + len b))`, i.e.
`200 * lcs / (len a + len b)`, computed on the whitespace-token-sorted
strings, with exact rational arithmetic standing in for the library's
floating-point computation.  `process.extractOne` scans the choices in
order and keeps a candidate only when its score is strictly greater than
the best so far, so ties resolve to the earliest choice.
-/

namespace AttendanceApp

/-- A spreadsheet cell: a number, a text value, or a missing value (NaN). -/
inductive Cell where
  | num (q : ℚ)
  | str (s : String)
  | blank
deriving DecidableEq

/-- A data frame: ordered column names and row-major cells.  In a
well-formed table every row has exactly `cols.length` cells. -/
structure Table where
  cols : List String
  rows : List (List Cell)
deriving DecidableEq

/-- Well-formedness: every row has one cell per column. -/
def Table.WF (t : Table) : Prop :=
  ∀ r ∈ t.rows, r.length = t.cols.length

/-- Longest common subsequence length, the textbook recurrence.  This is
the specification version (defined by well-founded recursion); the
executable version is `lcsDP` below. -/
def lcsN : List Char → List Char → ℕ
  | [], _ => 0
  | _ :: _, [] => 0
  | a :: as, b :: bs =>
    if a = b then lcsN as bs + 1
    else max (lcsN (a :: as) bs) (lcsN as (b :: bs))
termination_by xs ys => xs.length + ys.length
decreasing_by all_goals (simp; try omega)

/-- The row of LCS values of `as` against every suffix of the second
string: `rowOf as bs = [lcsN as bs, lcsN as bs.tail, …, lcsN as []]`. -/
def rowOf (as : List Char) : List Char → List ℕ
  | [] => [lcsN as []]
  | b :: bs => lcsN as (b :: bs) :: rowOf as bs

/-- One dynamic-programming step: from the row for `as` produce the row
for `c :: as` (structural recursion, kernel-computable). -/
def lcsRow (c : Char) : List Char → List ℕ → List ℕ
  | [], _ => [0]
  | b :: bs, prev =>
    let rest := lcsRow c bs prev.tail
    let v := if c = b then prev.tail.headD 0 + 1 else max (rest.headD 0) (prev.headD 0)
    v :: rest

/-- All dynamic-programming rows, bottom up. -/
def lcsRows : List Char → List Char → List ℕ
  | [], bs => List.replicate (bs.length + 1) 0
  | c :: as, bs => lcsRow c bs (lcsRows as bs)

/-- Executable LCS length. -/
def lcsDP (as bs : List Char) : ℕ := (lcsRows as bs).headD 0

/-- Accumulator loop for whitespace tokenization. -/
def tokensGo : List Char → List Char → List String
  | [], acc => if acc = [] then [] else [String.mk acc.reverse]
  | c :: cs, acc =>
    if c.isWhitespace then
      if acc = [] then tokensGo cs [] else String.mk acc.reverse :: tokensGo cs []
    else tokensGo cs (c :: acc)

/-- Whitespace tokenization, as Python's `str.split()`: split on runs of
whitespace, discarding empty tokens. -/
def tokens (s : String) : List String := tokensGo s.toList []

/-- Lexicographic comparison of character lists by code point — the
order Python's `sorted` uses on strings. -/
def charListLe : List Char → List Char → Bool
  | [], _ => true
  | _ :: _, [] => false
  | a :: as, b :: bs =>
    if a.toNat < b.toNat then true
    else if b.toNat < a.toNat then false
    else charListLe as bs

/-- Code-point lexicographic order on strings, as a proposition. -/
abbrev tokLE (a b : String) : Prop := charListLe a.toList b.toList = true

/-- Sort the whitespace tokens and re-join with single spaces — the
preprocessing of `fuzz.token_sort_ratio`. -/
def sortJoin (s : String) : String :=
  String.intercalate " " (List.insertionSort tokLE (tokens s))

/-- The normalized indel similarity of `fuzz.ratio`, as an exact
rational: `200 * lcs / (len x + len y)` (and `100` for two empty
strings). -/
def normSim (x y : String) : ℚ :=
  if x.length + y.length = 0 then 100
  else (200 * (lcsDP x.toList y.toList) : ℚ) / ((x.length : ℚ) + (y.length : ℚ))

/-- `fuzz.token_sort_ratio`: normalized indel similarity of the
token-sorted strings.  This is the similarity scorer `score(a, b)` used
at `src/app.py:518` and `src/app.py:528`. -/
def score (a b : String) : ℚ := normSim (sortJoin a) (sortJoin b)

/-- The scanning loop of `rapidfuzz.process.extractOne`: keep the current
best (choice, score) pair, replacing it only on a strictly greater
score, so the first maximal choice wins. -/
def extractGo (q : String) : String × ℚ → List String → String × ℚ
  | best, [] => best
  | best, c :: cs => extractGo q (if score q c > best.2 then (c, score q c) else best) cs

/-- `rapidfuzz.process.extractOne(query, choices, scorer=token_sort_ratio)`:
`none` on an empty choice list, otherwise the first choice attaining the
maximal score, together with that score. -/
def extractOne (q : String) : List String → Option (String × ℚ)
  | [] => none
  | c :: cs => some (extractGo q (c, score q c) cs)

/-- The maximal score of `q` against a list of labels (`0` for the empty
list; all scores are nonnegative, so the `0` seed is harmless). -/
def maxScore (q : String) (l : List String) : ℚ := (l.map (score q)).foldl max 0

/-- One step of the correspondence builder (`src/app.py:518-519` and
`src/app.py:528-529`): the matched source label when the best fuzzy
score is strictly greater than the threshold, otherwise no source. -/
def mapOne (target : String) (avail : List String) (th : ℚ) : Option String :=
  match extractOne target avail with
  | some p => if p.2 > th then some p.1 else none
  | none => none

/-- The correspondence builder over a whole target schema: one entry per
target label, in target order. -/
def buildMapping (targets sources : List String) (th : ℚ) :
    List (String × Option String) :=
  targets.map fun t => (t, mapOne t sources th)

/-- The required canonical vocabulary (`src/app.py:512`). -/
def requiredColumns : List String := ["Admission No", "Student Name", "Present", "Absent"]

/-- The optional canonical vocabulary (`src/app.py:526`). -/
def optionalColumns : List String := ["Late", "Very_Late", "Very Late"]

/-- The required-column loop (`src/app.py:517-523`): each required label
maps to its fuzzy match when one scores above 60, else to itself. -/
def requiredMapping (avail : List String) : List (String × String) :=
  requiredColumns.map fun r => (r, (mapOne r avail 60).getD r)

/-- The warnings the required-column loop emits (`src/app.py:523`). -/
def requiredWarnings (avail : List String) : List String :=
  (requiredColumns.filter fun r => (mapOne r avail 60).isNone).map
    fun r => "Could not find a matching column for " ++ r

/-- The optional-column loop (`src/app.py:527-531`): an entry only when
the fuzzy match scores above 60. -/
def optionalMapping (avail : List String) : List (String × String) :=
  optionalColumns.filterMap fun o => (mapOne o avail 60).map fun c => (o, c)

/-- The full `column_mapping` dict built at `src/app.py:516-531` (keys
are canonical names, values the matched source column names). -/
def columnMapping (avail : List String) : List (String × String) :=
  requiredMapping avail ++ optionalMapping avail

/-- `df.rename(columns=m)` (`src/app.py:534`): every column whose name is
a key of `m` is renamed to the corresponding value; other columns keep
their names. -/
def renameCols (m : List (String × String)) (cols : List String) : List String :=
  cols.map fun c => (List.lookup c m).getD c

/-- Index of the first column with the given name. -/
def Table.findCol (t : Table) (name : String) : Option ℕ :=
  t.cols.findIdx? (fun c => c == name)

/-- `df[name]`: the cells of the first column with the given name, or
`none` when no column has it (pandas raises `KeyError`). -/
def Table.getCol (t : Table) (name : String) : Option (List Cell) :=
  (t.findCol name).map fun i => t.rows.map fun r => r.getD i Cell.blank

/-- `df[name] = cells`: replace the column in place when it exists,
otherwise append it on the right (pandas assignment semantics). -/
def Table.setCol (t : Table) (name : String) (cells : List Cell) : Table :=
  match t.findCol name with
  | some i => { cols := t.cols, rows := (t.rows.zip cells).map fun p => p.1.set i p.2 }
  | none => { cols := t.cols ++ [name], rows := (t.rows.zip cells).map fun p => p.1 ++ [p.2] }

/-- `df[[n₁, n₂, …]]` restricted to names actually present — the output
column selection of `src/app.py:567-572` and `src/app.py:590-595`. -/
def Table.select (t : Table) (names : List String) : Table :=
  let present := names.filter fun n => t.cols.contains n
  { cols := present,
    rows := t.rows.map fun r => present.map fun n => r.getD ((t.findCol n).getD 0) Cell.blank }

/-- Interpret cells as numbers-or-NaN; `none` when a text cell is hit
(pandas numeric operations raise on mixed text). -/
def toNumCells : List Cell → Option (List (Option ℚ))
  | [] => some []
  | Cell.num q :: cs => (toNumCells cs).map fun rest => some q :: rest
  | Cell.blank :: cs => (toNumCells cs).map fun rest => none :: rest
  | Cell.str _ :: _ => none

/-- Read a column as numbers: `none` (outer) when the column is missing
or holds text (pandas raises); inner `none` is a NaN cell. -/
def Table.numCol (t : Table) (name : String) : Option (List (Option ℚ)) :=
  (t.getCol name).bind toNumCells

/-- `src/app.py:537-538`: add a zero-filled `Late` column when missing. -/
def addLateStep1 (t : Table) : Table :=
  if t.cols.contains "Late" then t
  else t.setCol "Late" (t.rows.map fun _ => Cell.num 0)

/-- `src/app.py:539-544`: add `Very_Late` when missing, copying
`Very Late` if that exists, else zero-filled. -/
def addLateStep2 (t1 : Table) : Table :=
  if t1.cols.contains "Very_Late" then t1
  else
    match t1.getCol "Very Late" with
    | some vl => t1.setCol "Very_Late" vl
    | none => t1.setCol "Very_Late" (t1.rows.map fun _ => Cell.num 0)

/-- `src/app.py:537-544`: both default-column additions. -/
def addLateCols (t : Table) : Table := addLateStep2 (addLateStep1 t)

/-- `df['Attendance %'] = df['Present'] / working_days * 100`
(`src/app.py:548`); NaN propagates. -/
def attendanceCells (pvals : List (Option ℚ)) (wd : ℚ) : List Cell :=
  pvals.map fun o =>
    match o with
    | some p => Cell.num (p / wd * 100)
    | none => Cell.blank

/-- Python dict lookup for the course-to-class alias table (keys are the
raw course cell values; they are distinct, so first match is dict
semantics). -/
def alookup : List (Cell × String) → Cell → Option String
  | [], _ => none
  | p :: rest, v => if v = p.1 then some p.2 else alookup rest v

/-- The `Class` cell produced by `df[course_column].map(class_mapping)`:
a mapped value, or NaN when the raw value has no alias entry. -/
def keyCell : Option String → Cell
  | some s => Cell.str s
  | none => Cell.blank

/-- `df['Class'].isin(class_list)`: a NaN key is never in the list. -/
def keyIn (classList : List String) : Option String → Bool
  | some s => classList.contains s
  | none => false

/-- The output schema of the detail tables (`src/app.py:567-568`). -/
def outputColumns : List String :=
  ["Admission No", "Student Name", "Working_Days", "Present", "Absent",
   "Late", "Very_Late", "Attendance %", "Class"]

/-- The category-strategy grouping loop (`src/app.py:551-574`): keep rows
whose mapped class key is in the declared list, group by class in
declared order, skip (with a warning) classes with no rows. -/
def categoryGroups (cols : List String) (rowsKeys : List (List Cell × Option String))
    (classList : List String) : List (String × Table) × List String :=
  let kept := rowsKeys.filter fun p => keyIn classList p.2
  (classList.filterMap fun cname =>
    let grows := (kept.filter fun p => decide (p.2 = some cname)).map Prod.fst
    if grows.isEmpty then none
    else some (cname, Table.select { cols := cols, rows := grows } outputColumns),
   (classList.filter fun cname =>
     (kept.filter fun p => decide (p.2 = some cname)).isEmpty).map
     fun cname => "No students found for class: " ++ cname)

/-- The slice sizes of the positional fallback (`src/app.py:580-585`):
`N // G` rows per class plus one extra for each of the first `N % G`
classes. -/
def chunkSizes (n g : ℕ) : List ℕ :=
  (List.range g).map fun i => n / g + (if i < n % g then 1 else 0)

/-- Consecutive slices `df.iloc[start:end]` of the given sizes
(`src/app.py:583-598`). -/
def splitChunks {α : Type} : List α → List ℕ → List (List α)
  | _, [] => []
  | rows, k :: ks => rows.take k :: splitChunks (rows.drop k) ks

/-- The positional fallback grouping (`src/app.py:575-598`): distribute
rows over the classes in order, tag each slice with its class name,
select the output columns.  Empty slices are not skipped. -/
def positionalGroups (t : Table) (classList : List String) : List (String × Table) :=
  let chunks := splitChunks t.rows (chunkSizes t.rows.length classList.length)
  (classList.zip chunks).map fun p =>
    (p.1, Table.select ((Table.mk t.cols p.2).setCol "Class" (p.2.map fun _ => Cell.str p.1))
      outputColumns)

/-- `process_real_data` (`src/app.py:508-600`).  Returns the detail
tables (in class order) and the warnings, or `none` when the Python code
raises an uncaught exception (`KeyError` on a missing `Present` or
course column at `src/app.py:548`/`src/app.py:553`, `ZeroDivisionError`
on an empty class list at `src/app.py:580`). -/
def processRealData (df : Table) (classList : List String) (courseColumn : Option String)
    (classMapping : List (Cell × String)) (workingDays : ℚ) :
    Option (List (String × Table) × List String) :=
  let m := columnMapping df.cols
  let df1 : Table := { cols := renameCols m df.cols, rows := df.rows }
  let df2 := addLateCols df1
  let df3 := df2.setCol "Working_Days" (df2.rows.map fun _ => Cell.num workingDays)
  match df3.numCol "Present" with
  | none => none
  | some pvals =>
    let df4 := df3.setCol "Attendance %" (attendanceCells pvals workingDays)
    match courseColumn, classMapping with
    | some cc, q :: qs =>
      match df4.getCol cc with
      | none => none
      | some raw =>
        let keys := raw.map (alookup (q :: qs))
        let df5 := df4.setCol "Class" (keys.map keyCell)
        let gw := categoryGroups df5.cols (df5.rows.zip keys) classList
        some (gw.1, requiredWarnings df.cols ++ gw.2)
    | _, _ =>
      match classList with
      | [] => none
      | _ :: _ =>
        some (positionalGroups df4 classList,
          requiredWarnings df.cols ++ ["No course column detected. Using manual class assignment."])

/-- Banker's rounding to an integer, as Python's built-in `round`. -/
def roundHalfEven (q : ℚ) : ℤ :=
  if q - (⌊q⌋ : ℚ) = 1 / 2 then (if ⌊q⌋ % 2 = 0 then ⌊q⌋ else ⌊q⌋ + 1) else round q

/-- Python's `round(x, 2)`. -/
def round2 (q : ℚ) : ℚ := (roundHalfEven (q * 100) : ℚ) / 100

/-- Pandas `Series.mean()`: NaN cells are excluded from both the count
and the sum; the mean of no numbers is NaN (`none`). -/
def meanOpt (vs : List (Option ℚ)) : Option ℚ :=
  let xs := vs.reduceOption
  if xs.isEmpty then none else some (xs.sum / (xs.length : ℚ))

/-- `round(df[name].mean(), 2)`: outer `none` when the column is missing
or non-numeric (an exception), inner `none` when the mean is NaN. -/
def colAvg (t : Table) (name : String) : Option (Option ℚ) :=
  (t.numCol name).map fun vs => (meanOpt vs).map round2

/-- One summary record (`src/app.py:632-641`). -/
structure SummaryRow where
  className : String
  totalStudents : ℕ
  totalWorkingDays : ℚ
  avgPresent : Option ℚ
  avgAbsent : Option ℚ
  avgLate : Option ℚ
  avgVeryLate : Option ℚ
  avgAttendance : Option ℚ
deriving DecidableEq

/-- The summary record of one detail table (`src/app.py:630-641`);
`none` when one of the referenced columns is missing (`KeyError`). -/
def summaryRow (cname : String) (t : Table) (wd : ℚ) : Option SummaryRow :=
  match colAvg t "Present", colAvg t "Absent", colAvg t "Late",
      colAvg t "Very_Late", colAvg t "Attendance %" with
  | some p, some a, some l, some v, some att =>
    some { className := cname, totalStudents := t.rows.length, totalWorkingDays := wd,
           avgPresent := p, avgAbsent := a, avgLate := l, avgVeryLate := v,
           avgAttendance := att }
  | _, _, _, _, _ => none

/-- `re.findall(r'\d+', name)` first match parsed as an integer
(`src/app.py:418-421`): the first maximal run of digits, `none` when the
name has no digit. -/
def extractNumber (s : String) : Option ℕ :=
  let ds := (s.toList.dropWhile fun c => !c.isDigit).takeWhile Char.isDigit
  if ds.isEmpty then none
  else some (ds.foldl (fun n c => 10 * n + (c.toNat - 48)) 0)

/-- The sort key order of `sort_class_names`: compare extracted numbers,
keys without digits compare as `+∞`. -/
def numKeyLE : Option ℕ → Option ℕ → Bool
  | _, none => true
  | none, some _ => false
  | some m, some n => m ≤ n

/-- The class-name order induced by `extract_number`. -/
abbrev classLE (a b : String) : Prop := numKeyLE (extractNumber a) (extractNumber b) = true

/-- `sort_class_names` (`src/app.py:417-423`): Python's stable `sorted`
with the numeric key; insertion sort is stable for the same order. -/
def sort_class_names (l : List String) : List String := List.insertionSort classLE l

/-- The summary construction loop (`src/app.py:625-641`): one record per
class, in `sort_class_names` order. -/
def summaryRows (detailed : List (String × Table)) (wd : ℚ) : Option (List SummaryRow) :=
  (sort_class_names (detailed.map Prod.fst)).mapM fun n =>
    (List.lookup n detailed).bind fun t => summaryRow n t wd

/-- Invariant used for the default-zero columns: the named column exists
and every row holds the number `0` there. -/
def zeroCol (t : Table) (name : String) : Prop :=
  ∃ j, t.cols.findIdx? (fun c => c == name) = some j ∧
    ∀ r ∈ t.rows, r.getD j Cell.blank = Cell.num 0

/-- A concrete two-student detail table for the aggregation scenario:
`Present = [8, 10]`, working days 10, `Attendance % = [80, 100]`. -/
def c5table : Table :=
  { cols := ["Present", "Absent", "Late", "Very_Late", "Attendance %"],
    rows := [[Cell.num 8, Cell.num 1, Cell.num 0, Cell.num 0, Cell.num 80],
             [Cell.num 10, Cell.num 1, Cell.num 0, Cell.num 0, Cell.num 100]] }

/-- Concrete upload whose `present` column (lowercase) fuzzy-matches the
canonical `Present` but has a different name. -/
def cexTable1 : Table :=
  { cols := ["Admission No", "Student Name", "present", "Absent"],
    rows := [[Cell.str "A1", Cell.str "Bob", Cell.num 8, Cell.num 2]] }

/-- Concrete upload with no column resembling `Present` or `Absent`. -/
def cexTable2 : Table :=
  { cols := ["Admission No", "Student Name"],
    rows := [[Cell.str "A1", Cell.str "Bob"]] }

/-- Concrete well-formed upload with exactly the four required columns
and one student row. -/
def cexTable8 : Table :=
  { cols := ["Admission No", "Student Name", "Present", "Absent"],
    rows := [[Cell.str "A1", Cell.str "Bob", Cell.num 8, Cell.num 2]] }

/-- Concrete upload with a course column whose raw value `"X"` has no
alias entry. -/
def cexTable9 : Table :=
  { cols := ["Admission No", "Student Name", "Present", "Absent", "Course"],
    rows := [[Cell.str "A1", Cell.str "Bob", Cell.num 8, Cell.num 2, Cell.str "X"]] }

/-- The detail table `process_real_data` produces for `cexTable8` with a
single class and 10 working days. -/
def c10table : Table :=
  { cols := outputColumns,
    rows := [[Cell.str "A1", Cell.str "Bob", Cell.num 10, Cell.num 8, Cell.num 2,
              Cell.num 0, Cell.num 0, Cell.num 80, Cell.str "GRADE 01"]] }

/-! ### Properties of the LCS computation -/

set_option maxRecDepth 100000

theorem head?_rowOf (as bs : List Char) : (rowOf as bs).head? = some (lcsN as bs) := by
  cases bs <;> simp [rowOf]

theorem headD_rowOf (as bs : List Char) : (rowOf as bs).headD 0 = lcsN as bs := by
  cases bs <;> simp [rowOf]

theorem lcsRow_rowOf (c : Char) (as : List Char) :
    ∀ bs : List Char, lcsRow c bs (rowOf as bs) = rowOf (c :: as) bs := by
  intro bs
  induction bs with
  | nil => simp [lcsRow, rowOf, lcsN]
  | cons b bs ih =>
    show lcsRow c (b :: bs) (lcsN as (b :: bs) :: rowOf as bs) = rowOf (c :: as) (b :: bs)
    simp only [lcsRow, List.tail_cons, List.headD_cons, ih, rowOf]
    congr 1
    by_cases h : c = b
    · simp [lcsN, h, head?_rowOf]
    · simp [lcsN, h, head?_rowOf, Nat.max_comm]

theorem lcsRows_eq_rowOf (as bs : List Char) : lcsRows as bs = rowOf as bs := by
  induction as with
  | nil =>
    induction bs with
    | nil => simp [lcsRows, rowOf, lcsN]
    | cons b bs ih =>
      simp only [lcsRows, rowOf, lcsN] at *
      simp [List.replicate_succ] at ih ⊢
      exact ih
  | cons c as ih =>
    simp only [lcsRows, ih, lcsRow_rowOf]

theorem lcsDP_eq (as bs : List Char) : lcsDP as bs = lcsN as bs := by
  simp [lcsDP, lcsRows_eq_rowOf, headD_rowOf, head?_rowOf]

theorem lcsN_le_left : ∀ as bs : List Char, lcsN as bs ≤ as.length := by
  intro as bs
  induction as, bs using lcsN.induct with
  | case1 bs => simp [lcsN]
  | case2 a as => simp [lcsN]
  | case3 as b bs ih => simp [lcsN]; omega
  | case4 a as b bs h ih1 ih2 => simp only [lcsN, if_neg h]; simp at ih1 ih2 ⊢; omega

theorem lcsN_le_right : ∀ as bs : List Char, lcsN as bs ≤ bs.length := by
  intro as bs
  induction as, bs using lcsN.induct with
  | case1 bs => simp [lcsN]
  | case2 a as => simp [lcsN]
  | case3 as b bs ih => simp [lcsN]; omega
  | case4 a as b bs h ih1 ih2 => simp only [lcsN, if_neg h]; simp at ih1 ih2 ⊢; omega

theorem lcsN_self : ∀ as : List Char, lcsN as as = as.length := by
  intro as
  induction as with
  | nil => simp [lcsN]
  | cons a as ih => simp [lcsN, ih]

theorem lcsN_comm : ∀ as bs : List Char, lcsN as bs = lcsN bs as := by
  intro as bs
  induction as, bs using lcsN.induct with
  | case1 bs => cases bs <;> simp [lcsN]
  | case2 a as => simp [lcsN]
  | case3 as b bs ih => simp [lcsN, ih]
  | case4 a as b bs h ih1 ih2 =>
    have h' : b ≠ a := fun hh => h hh.symm
    simp only [lcsN, if_neg h, if_neg h']
    rw [ih1, ih2, Nat.max_comm]

/-! ### Properties of the similarity scorer -/

theorem length_toList (s : String) : s.toList.length = s.length := rfl

theorem normSim_self (x : String) : normSim x x = 100 := by
  unfold normSim
  by_cases h : x.length + x.length = 0
  · simp [h]
  · have hx : x.length ≠ 0 := by omega
    simp only [if_neg h, lcsDP_eq, lcsN_self, length_toList]
    have hq : ((x.length : ℚ)) ≠ 0 := by exact_mod_cast hx
    field_simp
    ring

theorem normSim_comm (x y : String) : normSim x y = normSim y x := by
  unfold normSim
  rw [lcsDP_eq, lcsDP_eq, lcsN_comm]
  rw [Nat.add_comm x.length y.length, add_comm (x.length : ℚ) (y.length : ℚ)]

theorem normSim_nonneg (x y : String) : 0 ≤ normSim x y := by
  unfold normSim
  by_cases h : x.length + y.length = 0
  · simp [h]
  · simp only [if_neg h]
    apply div_nonneg
    · positivity
    · have : 0 < x.length + y.length := Nat.pos_of_ne_zero h
      have : (0 : ℚ) < (x.length : ℚ) + (y.length : ℚ) := by exact_mod_cast this
      linarith

theorem normSim_le_100 (x y : String) : normSim x y ≤ 100 := by
  unfold normSim
  by_cases h : x.length + y.length = 0
  · simp [h]
  · simp only [if_neg h]
    have hpos : 0 < x.length + y.length := Nat.pos_of_ne_zero h
    have hq : (0 : ℚ) < (x.length : ℚ) + (y.length : ℚ) := by exact_mod_cast hpos
    rw [div_le_iff₀ hq]
    have h1 := lcsN_le_left x.toList y.toList
    have h2 := lcsN_le_right x.toList y.toList
    rw [lcsDP_eq]
    have : 2 * lcsN x.toList y.toList ≤ x.length + y.length := by
      simp only [length_toList] at h1 h2; omega
    have : (2 * lcsN x.toList y.toList : ℚ) ≤ (x.length : ℚ) + (y.length : ℚ) := by
      exact_mod_cast this
    nlinarith

theorem score_self (a : String) : score a a = 100 := normSim_self (sortJoin a)

theorem score_comm (a b : String) : score a b = score b a := normSim_comm _ _

theorem score_nonneg (a b : String) : 0 ≤ score a b := normSim_nonneg _ _

theorem score_le_100 (a b : String) : score a b ≤ 100 := normSim_le_100 _ _

/-! ### The token order is a total preorder with antisymmetry -/

theorem char_toNat_inj {a b : Char} (h : a.toNat = b.toNat) : a = b :=
  Char.ext_iff.mpr (UInt32.ext_iff.mpr h)

theorem charListLe_total : ∀ as bs : List Char,
    charListLe as bs = true ∨ charListLe bs as = true := by
  intro as
  induction as with
  | nil => intro bs; left; simp [charListLe]
  | cons a as ih =>
    intro bs
    cases bs with
    | nil => right; simp [charListLe]
    | cons b bs =>
      by_cases h1 : a.toNat < b.toNat
      · left; simp [charListLe, h1]
      · by_cases h2 : b.toNat < a.toNat
        · right; simp [charListLe, h2]
        · have := ih bs
          simp [charListLe, h1, h2]
          exact this

theorem charListLe_antisymm : ∀ as bs : List Char,
    charListLe as bs = true → charListLe bs as = true → as = bs := by
  intro as
  induction as with
  | nil =>
    intro bs _ hba
    cases bs with
    | nil => rfl
    | cons b bs => simp [charListLe] at hba
  | cons a as ih =>
    intro bs hab hba
    cases bs with
    | nil => simp [charListLe] at hab
    | cons b bs =>
      by_cases h1 : a.toNat < b.toNat
      · exfalso
        have h2 : ¬ b.toNat < a.toNat := by omega
        simp [charListLe, h1, h2] at hba
      · by_cases h2 : b.toNat < a.toNat
        · exfalso; simp [charListLe, h1, h2] at hab
        · have heq : a = b := char_toNat_inj (by omega)
          simp [charListLe, h1, h2] at hab hba
          rw [heq, ih bs hab hba]

theorem charListLe_trans : ∀ as bs cs : List Char,
    charListLe as bs = true → charListLe bs cs = true → charListLe as cs = true := by
  intro as
  induction as with
  | nil => intro bs cs _ _; simp [charListLe]
  | cons a as ih =>
    intro bs cs hab hbc
    cases bs with
    | nil => simp [charListLe] at hab
    | cons b bs =>
      cases cs with
      | nil => simp [charListLe] at hbc
      | cons c cs =>
        by_cases hab1 : a.toNat < b.toNat <;> by_cases hbc1 : b.toNat < c.toNat
        · have : a.toNat < c.toNat := by omega
          simp [charListLe, this]
        · by_cases hbc2 : c.toNat < b.toNat
          · simp [charListLe, hbc1, hbc2] at hbc
          · have : a.toNat < c.toNat := by omega
            simp [charListLe, this]
        · by_cases hab2 : b.toNat < a.toNat
          · simp [charListLe, hab1, hab2] at hab
          · have : a.toNat < c.toNat := by omega
            simp [charListLe, this]
        · by_cases hab2 : b.toNat < a.toNat
          · simp [charListLe, hab1, hab2] at hab
          · by_cases hbc2 : c.toNat < b.toNat
            · simp [charListLe, hbc1, hbc2] at hbc
            · have h1 : ¬ a.toNat < c.toNat := by omega
              have h2 : ¬ c.toNat < a.toNat := by omega
              simp [charListLe, hab1, hab2] at hab
              simp [charListLe, hbc1, hbc2] at hbc
              simp [charListLe, h1, h2]
              exact ih bs cs hab hbc

instance : IsTotal String tokLE := ⟨fun a b => charListLe_total a.toList b.toList⟩

instance : IsTrans String tokLE :=
  ⟨fun a b c hab hbc => charListLe_trans a.toList b.toList c.toList hab hbc⟩

instance : IsAntisymm String tokLE := by
  constructor
  intro a b hab hba
  have h : a.toList = b.toList := charListLe_antisymm a.toList b.toList hab hba
  cases a; cases b
  exact congrArg String.mk h

/-- Sorting is invariant under permutation of the tokens, so `sortJoin`
identifies all token reorderings of a label. -/
theorem sortJoin_eq_of_perm {a b : String} (h : (tokens a).Perm (tokens b)) :
    sortJoin a = sortJoin b := by
  unfold sortJoin
  congr 1
  have hp : (List.insertionSort tokLE (tokens a)).Perm (List.insertionSort tokLE (tokens b)) :=
    ((List.perm_insertionSort tokLE (tokens a)).trans h).trans
      (List.perm_insertionSort tokLE (tokens b)).symm
  exact List.eq_of_perm_of_sorted hp (List.sorted_insertionSort tokLE (tokens a))
    (List.sorted_insertionSort tokLE (tokens b))

theorem score_eq_100_of_perm {a b : String} (h : (tokens a).Perm (tokens b)) :
    score a b = 100 := by
  unfold score
  rw [sortJoin_eq_of_perm h]
  exact normSim_self _

/-! ### Characterization of `extractOne` (first maximal choice wins) -/

theorem le_foldl_max_init : ∀ (xs : List ℚ) (a : ℚ), a ≤ xs.foldl max a := by
  intro xs
  induction xs with
  | nil => intro a; simp
  | cons x xs ih =>
    intro a
    calc a ≤ max a x := le_max_left a x
    _ ≤ xs.foldl max (max a x) := ih (max a x)

theorem le_foldl_max_mem : ∀ (xs : List ℚ) (a x : ℚ), x ∈ xs → x ≤ xs.foldl max a := by
  intro xs
  induction xs with
  | nil => intro a x hx; simp at hx
  | cons y ys ih =>
    intro a x hx
    rcases List.mem_cons.mp hx with h | h
    · subst h
      calc x ≤ max a x := le_max_right a x
      _ ≤ ys.foldl max (max a x) := le_foldl_max_init ys (max a x)
    · exact ih (max a y) x h

theorem foldl_max_of_le : ∀ (xs : List ℚ) (a : ℚ), (∀ x ∈ xs, x ≤ a) → xs.foldl max a = a := by
  intro xs
  induction xs with
  | nil => intro a _; rfl
  | cons x xs ih =>
    intro a h
    have hx : x ≤ a := h x (List.mem_cons_self x xs)
    simp only [List.foldl_cons, max_eq_left hx]
    exact ih a fun y hy => h y (List.mem_cons_of_mem x hy)

theorem extractGo_snd (q : String) :
    ∀ (l : List String) (b : String × ℚ),
      (extractGo q b l).2 = (l.map (score q)).foldl max b.2 := by
  intro l
  induction l with
  | nil => intro b; rfl
  | cons c cs ih =>
    intro b
    simp only [extractGo, List.map_cons, List.foldl_cons]
    by_cases h : score q c > b.2
    · rw [if_pos h, ih, max_eq_right (le_of_lt h)]
    · rw [if_neg h, ih, max_eq_left (not_lt.mp h)]

theorem extractGo_keep (q : String) :
    ∀ (l : List String) (b : String × ℚ), (∀ c ∈ l, score q c ≤ b.2) →
      extractGo q b l = b := by
  intro l
  induction l with
  | nil => intro b _; rfl
  | cons c cs ih =>
    intro b h
    have hc : ¬ score q c > b.2 := not_lt.mpr (h c (List.mem_cons_self c cs))
    simp only [extractGo, if_neg hc]
    exact ih b fun d hd => h d (List.mem_cons_of_mem c hd)

theorem extractGo_gt (q : String) (l : List String) (b : String × ℚ)
    (h : ∃ c ∈ l, b.2 < score q c) : b.2 < (extractGo q b l).2 := by
  obtain ⟨c, hc, hlt⟩ := h
  rw [extractGo_snd]
  calc b.2 < score q c := hlt
  _ ≤ (l.map (score q)).foldl max b.2 :=
    le_foldl_max_mem _ _ _ (List.mem_map_of_mem (score q) hc)

theorem extractGo_find (q : String) :
    ∀ (l : List String) (b : String × ℚ), (∃ c ∈ l, b.2 < score q c) →
      l.find? (fun c => decide (score q c = (extractGo q b l).2)) =
        some (extractGo q b l).1 := by
  intro l
  induction l with
  | nil => intro b h; simp at h
  | cons c cs ih =>
    intro b hex
    by_cases h1 : score q c > b.2
    · by_cases h2 : ∃ d ∈ cs, score q c < score q d
      · have hgo : extractGo q b (c :: cs) = extractGo q (c, score q c) cs := by
          simp [extractGo, if_pos h1]
        have hlt : score q c < (extractGo q (c, score q c) cs).2 :=
          extractGo_gt q cs (c, score q c) h2
        have hne : ¬ (score q c = (extractGo q b (c :: cs)).2) := by
          rw [hgo]; exact ne_of_lt hlt
        rw [List.find?_cons_of_neg _ (by simpa using hne), hgo]
        exact ih (c, score q c) h2
      · push_neg at h2
        have hgo : extractGo q b (c :: cs) = (c, score q c) := by
          simp only [extractGo, if_pos h1]
          exact extractGo_keep q cs (c, score q c) h2
        rw [hgo]
        exact List.find?_cons_of_pos _ (by simp)
    · have hex' : ∃ d ∈ cs, b.2 < score q d := by
        obtain ⟨d, hd, hlt⟩ := hex
        rcases List.mem_cons.mp hd with h | h
        · exact absurd (h ▸ hlt) h1
        · exact ⟨d, h, hlt⟩
      have hgo : extractGo q b (c :: cs) = extractGo q b cs := by
        simp [extractGo, if_neg h1]
      have hlt : b.2 < (extractGo q b cs).2 := extractGo_gt q cs b hex'
      have hne : ¬ (score q c = (extractGo q b (c :: cs)).2) := by
        rw [hgo]
        intro hcontra
        rw [← hcontra] at hlt
        exact h1 hlt
      rw [List.find?_cons_of_neg _ (by simpa using hne), hgo]
      exact ih b hex'

theorem maxScore_cons (q c : String) (cs : List String) :
    maxScore q (c :: cs) = (cs.map (score q)).foldl max (score q c) := by
  unfold maxScore
  simp only [List.map_cons, List.foldl_cons]
  rw [max_eq_right (score_nonneg q c)]

theorem extractOne_spec (q c : String) (cs : List String) :
    ∃ p, extractOne q (c :: cs) = some p ∧ p.2 = maxScore q (c :: cs) ∧
      (c :: cs).find? (fun x => decide (score q x = maxScore q (c :: cs))) = some p.1 := by
  refine ⟨extractGo q (c, score q c) cs, rfl, ?_, ?_⟩
  · rw [extractGo_snd, maxScore_cons]
  · by_cases h2 : ∃ d ∈ cs, score q c < score q d
    · have hrec := extractGo_find q cs (c, score q c) h2
      have hsnd : (extractGo q (c, score q c) cs).2 = maxScore q (c :: cs) := by
        rw [extractGo_snd, maxScore_cons]
      have hlt : score q c < (extractGo q (c, score q c) cs).2 :=
        extractGo_gt q cs (c, score q c) h2
      have hne : ¬ (score q c = maxScore q (c :: cs)) := by
        rw [← hsnd]; exact ne_of_lt hlt
      rw [List.find?_cons_of_neg _ (by simpa using hne)]
      simp only [← hsnd]
      exact hrec
    · push_neg at h2
      have hgo : extractGo q (c, score q c) cs = (c, score q c) :=
        extractGo_keep q cs (c, score q c) h2
      have hmax : maxScore q (c :: cs) = score q c := by
        rw [maxScore_cons]
        refine foldl_max_of_le _ _ ?_
        intro x hx
        obtain ⟨d, hd, rfl⟩ := List.mem_map.mp hx
        exact h2 d hd
      rw [hgo, hmax]
      exact List.find?_cons_of_pos _ (by simp)

theorem mapOne_eq (t : String) (sources : List String) (th : ℚ) :
    mapOne t sources th =
      if sources = [] ∨ maxScore t sources ≤ th then none
      else sources.find? fun c => decide (score t c = maxScore t sources) := by
  cases sources with
  | nil => simp [mapOne, extractOne]
  | cons c cs =>
    obtain ⟨p, he, hsnd, hfind⟩ := extractOne_spec t c cs
    simp only [mapOne, he]
    by_cases hth : p.2 > th
    · have hcond : ¬ ((c :: cs) = [] ∨ maxScore t (c :: cs) ≤ th) := by
        push_neg
        exact ⟨List.cons_ne_nil c cs, hsnd ▸ hth⟩
      rw [if_pos hth, if_neg hcond, hfind]
    · have hcond : (c :: cs) = [] ∨ maxScore t (c :: cs) ≤ th :=
        Or.inr (hsnd ▸ not_lt.mp hth)
      rw [if_neg hth, if_pos hcond]

/-! ### Claims C3 and C4 -/

/-- Claim C3, counterexample: at `targets = ["abcxy"]`, `sources =
["abcuv"]`, `threshold = 60` the maximum similarity score is exactly 60,
which is greater than or equal to the threshold, yet the builder maps the
target to no source (the code at `src/app.py:519` uses a strict `> 60`
comparison), contradicting the claim's "greater than or equal". -/
theorem claimC3_counterexample :
    maxScore "abcxy" ["abcuv"] = 60 ∧ (60 : ℚ) ≤ maxScore "abcxy" ["abcuv"] ∧
      mapOne "abcxy" ["abcuv"] 60 = none := by
  have h : maxScore "abcxy" ["abcuv"] = 60 := by with_unfolding_all rfl
  refine ⟨h, by rw [h], by with_unfolding_all rfl⟩

/-- Claim C3 (amended): the correspondence builder assigns each target
label exactly once (the mapping lists the targets in order); a target
maps to the first source label attaining the maximal score when that
maximum is strictly greater than the threshold, and to no source when
there are no source labels or the maximum is less than or equal to the
threshold. -/
theorem claimC3_proved (targets sources : List String) (th : ℚ) :
    (buildMapping targets sources th).map Prod.fst = targets ∧
    ∀ t : String,
      mapOne t sources th =
        if sources = [] ∨ maxScore t sources ≤ th then none
        else sources.find? fun c => decide (score t c = maxScore t sources) := by
  constructor
  · simp only [buildMapping, List.map_map]
    exact List.map_id targets
  · intro t
    exact mapOne_eq t sources th

/-- Claim C3 witness: a concrete instantiation of the amended claim: with
source labels `["identifier", "name"]` and threshold 60, target `"ID"`
resolves to the first maximal source `"identifier"`. -/
theorem claimC3_witness :
    (buildMapping ["ID"] ["identifier", "name"] 60).map Prod.fst = ["ID"] ∧
      mapOne "ID" ["identifier", "name"] 60 =
        if ["identifier", "name"] = ([] : List String) ∨
            maxScore "ID" ["identifier", "name"] ≤ 60 then none
        else ["identifier", "name"].find? fun c =>
          decide (score "ID" c = maxScore "ID" ["identifier", "name"]) :=
  ⟨(claimC3_proved ["ID"] ["identifier", "name"] 60).1,
    (claimC3_proved ["ID"] ["identifier", "name"] 60).2 "ID"⟩

/-- Claim C4, counterexample: the claim asserts every score is an
integer in `[0, 100]`, but `score "abc" "abd" = 200/3`, which is not an
integer (the `rapidfuzz` ratio is a rational/floating-point value). -/
theorem claimC4_counterexample :
    score "abc" "abd" = 200 / 3 ∧ ¬ ∃ n : ℤ, score "abc" "abd" = (n : ℚ) := by
  have h : score "abc" "abd" = 200 / 3 := by with_unfolding_all rfl
  refine ⟨h, ?_⟩
  rintro ⟨n, hn⟩
  rw [h] at hn
  have h3 : (200 : ℚ) = (n : ℚ) * 3 := by
    field_simp at hn
    linarith [hn]
  have h4 : (200 : ℤ) = n * 3 := by exact_mod_cast h3
  omega

/-- Claim C4 (amended): the similarity scorer satisfies
`score(a, a) = 100`, symmetry, and `score` of any whitespace-token
reordering of a label against the label is 100; every score is a
rational number in `[0, 100]` (not necessarily an integer). -/
theorem claimC4_proved (a b : String) :
    score a a = 100 ∧ score a b = score b a ∧ 0 ≤ score a b ∧ score a b ≤ 100 ∧
    ∀ c : String, (tokens c).Perm (tokens a) → score c a = 100 :=
  ⟨score_self a, score_comm a b, score_nonneg a b, score_le_100 a b,
    fun _ h => score_eq_100_of_perm h⟩

/-- Claim C4 witness: `score "Student Name" "Name Student" = 100`, by
the token-reordering clause of the amended claim at a concrete input. -/
theorem claimC4_witness : score "Student Name" "Name Student" = 100 :=
  (claimC4_proved "Name Student" "Name Student").2.2.2.2 "Student Name" (by decide)

/-! ### Claim C6: natural ordering of class names -/

theorem numKeyLE_total : ∀ a b : Option ℕ, numKeyLE a b = true ∨ numKeyLE b a = true := by
  intro a b
  cases a <;> cases b <;> (simp [numKeyLE]; try omega)

theorem numKeyLE_trans : ∀ a b c : Option ℕ,
    numKeyLE a b = true → numKeyLE b c = true → numKeyLE a c = true := by
  intro a b c
  cases a <;> cases b <;> cases c <;> (simp [numKeyLE]; try omega)

instance : IsTotal String classLE :=
  ⟨fun a b => numKeyLE_total (extractNumber a) (extractNumber b)⟩

instance : IsTrans String classLE :=
  ⟨fun a b c => numKeyLE_trans (extractNumber a) (extractNumber b) (extractNumber c)⟩

theorem key_ne_of_not_classLE {a b : String} (h : ¬ classLE a b) :
    extractNumber b ≠ extractNumber a := by
  simp only [classLE] at h
  cases ha : extractNumber a <;> cases hb : extractNumber b <;>
    simp [ha, hb, numKeyLE] at h ⊢
  omega

theorem filter_orderedInsert (v : Option ℕ) (a : String) :
    ∀ l : List String,
      (List.orderedInsert classLE a l).filter (fun s => decide (extractNumber s = v)) =
        if extractNumber a = v then
          a :: l.filter (fun s => decide (extractNumber s = v))
        else l.filter (fun s => decide (extractNumber s = v)) := by
  intro l
  induction l with
  | nil =>
    simp only [List.orderedInsert]
    by_cases ha : extractNumber a = v <;> simp [ha]
  | cons b l ih =>
    simp only [List.orderedInsert]
    by_cases hab : classLE a b
    · rw [if_pos hab]
      by_cases ha : extractNumber a = v <;> simp [ha, List.filter_cons]
    · rw [if_neg hab]
      have hb : extractNumber b ≠ extractNumber a := key_ne_of_not_classLE hab
      by_cases ha : extractNumber a = v
      · have hbv : ¬ (extractNumber b = v) := fun hbv => hb (hbv.trans ha.symm)
        simp [List.filter_cons, ha, hbv, ih]
      · simp only [if_neg ha] at ih ⊢
        simp [List.filter_cons, ih]

theorem filter_insertionSort (v : Option ℕ) :
    ∀ l : List String,
      (List.insertionSort classLE l).filter (fun s => decide (extractNumber s = v)) =
        l.filter (fun s => decide (extractNumber s = v)) := by
  intro l
  induction l with
  | nil => rfl
  | cons a l ih =>
    simp only [List.insertionSort]
    rw [filter_orderedInsert, ih]
    by_cases ha : extractNumber a = v <;> simp [ha, List.filter_cons]

/-- Claim C6 (confirmed): `sort_class_names` permutes its input into a
list sorted ascending by the first run of digits of each key (keys with
no digits ordered as `+∞`); keys with equal extracted numbers keep their
relative input order (for every key value the filtered subsequence is
unchanged); and `["GRADE 10", "GRADE 2", "GRADE 1"]` sorts to
`["GRADE 1", "GRADE 2", "GRADE 10"]`. -/
theorem claimC6_proved (l : List String) :
    (sort_class_names l).Perm l ∧
    (sort_class_names l).Sorted classLE ∧
    (∀ v : Option ℕ,
      (sort_class_names l).filter (fun s => decide (extractNumber s = v)) =
        l.filter (fun s => decide (extractNumber s = v))) ∧
    sort_class_names ["GRADE 10", "GRADE 2", "GRADE 1"] =
      ["GRADE 1", "GRADE 2", "GRADE 10"] :=
  ⟨List.perm_insertionSort classLE l, List.sorted_insertionSort classLE l,
    fun v => filter_insertionSort v l, by decide⟩

/-! ### Claim C7: positional fallback distribution -/

theorem splitChunks_length {α : Type} :
    ∀ (sizes : List ℕ) (rows : List α), (splitChunks rows sizes).length = sizes.length := by
  intro sizes
  induction sizes with
  | nil => intro rows; rfl
  | cons k ks ih => intro rows; simp [splitChunks, ih]

theorem splitChunks_join {α : Type} :
    ∀ (sizes : List ℕ) (rows : List α),
      (splitChunks rows sizes).flatten = rows.take sizes.sum := by
  intro sizes
  induction sizes with
  | nil => intro rows; simp [splitChunks]
  | cons k ks ih =>
    intro rows
    simp only [splitChunks, List.flatten_cons, List.sum_cons, ih]
    rw [List.take_add]

theorem range_map_sum (q r : ℕ) :
    ∀ g : ℕ, (((List.range g).map fun i => q + if i < r then 1 else 0).sum) =
      g * q + min r g := by
  intro g
  induction g with
  | zero => simp
  | succ g ih =>
    rw [List.range_succ]
    simp only [List.map_append, List.sum_append, ih, List.map_cons, List.map_nil,
      List.sum_cons, List.sum_nil]
    by_cases hgr : g < r <;> simp [hgr] <;> ring_nf <;> omega

theorem chunkSizes_sum (n g : ℕ) (hg : g ≠ 0) : (chunkSizes n g).sum = n := by
  unfold chunkSizes
  rw [range_map_sum]
  have h1 : n % g < g := Nat.mod_lt n (Nat.pos_of_ne_zero hg)
  have h2 := Nat.div_add_mod n g
  have : min (n % g) g = n % g := min_eq_left (le_of_lt h1)
  rw [this]
  omega

theorem splitChunks_getD_length {α : Type} :
    ∀ (sizes : List ℕ) (rows : List α), sizes.sum ≤ rows.length →
      ∀ i, i < sizes.length →
        ((splitChunks rows sizes).getD i []).length = sizes.getD i 0 := by
  intro sizes
  induction sizes with
  | nil => intro rows _ i hi; simp at hi
  | cons k ks ih =>
    intro rows hsum i hi
    cases i with
    | zero =>
      simp only [splitChunks, List.getD_cons_zero, List.length_take]
      simp only [List.sum_cons] at hsum
      omega
    | succ j =>
      simp only [splitChunks, List.getD_cons_succ]
      apply ih (rows.drop k) _ j (by simpa using hi)
      simp only [List.sum_cons] at hsum
      simp only [List.length_drop]
      omega

theorem chunkSizes_getD (n g i : ℕ) (hi : i < g) :
    (chunkSizes n g).getD i 0 = n / g + (if i < n % g then 1 else 0) := by
  unfold chunkSizes
  rw [List.getD_eq_getElem?_getD, List.getElem?_map, List.getElem?_range hi]
  rfl

/-- Claim C7 (confirmed): under the positional fallback, the rows are cut
into consecutive chunks, one per class: concatenating the chunks in order
returns exactly the input rows (so the groups are pairwise disjoint,
cover all rows, and preserve row order), there is one chunk per class,
chunk `i` has `N / G` rows plus one extra exactly when `i < N % G`, and
the emitted group names are the class names in order. -/
theorem claimC7_proved {α : Type} (rows : List α) (classes : List String)
    (h : classes ≠ []) :
    (splitChunks rows (chunkSizes rows.length classes.length)).flatten = rows ∧
    (splitChunks rows (chunkSizes rows.length classes.length)).length = classes.length ∧
    (∀ i, i < classes.length →
      ((splitChunks rows (chunkSizes rows.length classes.length)).getD i []).length =
        rows.length / classes.length +
          (if i < rows.length % classes.length then 1 else 0)) ∧
    ∀ t : Table, (positionalGroups t classes).map Prod.fst = classes := by
  have hg : classes.length ≠ 0 := fun hc => h (List.length_eq_zero.mp hc)
  have hsum := chunkSizes_sum rows.length classes.length hg
  refine ⟨?_, ?_, ?_, ?_⟩
  · rw [splitChunks_join, hsum, List.take_length]
  · rw [splitChunks_length]
    unfold chunkSizes
    simp
  · intro i hi
    rw [splitChunks_getD_length _ rows (le_of_eq hsum) i
      (by unfold chunkSizes; simpa using hi), chunkSizes_getD _ _ _ hi]
  · intro t
    unfold positionalGroups
    rw [List.map_map]
    have hlen : classes.length ≤
        (splitChunks t.rows (chunkSizes t.rows.length classes.length)).length := by
      rw [splitChunks_length]
      unfold chunkSizes
      simp
    calc (classes.zip (splitChunks t.rows (chunkSizes t.rows.length classes.length))).map
            (Prod.fst ∘ fun p => (p.1, Table.select
              ((Table.mk t.cols p.2).setCol "Class" (p.2.map fun _ => Cell.str p.1))
              outputColumns))
        = (classes.zip (splitChunks t.rows (chunkSizes t.rows.length classes.length))).map
            Prod.fst := by rfl
      _ = classes := List.map_fst_zip _ _ hlen

/-- Claim C7 witness: the distribution at three rows over two classes:
chunks `[10, 20]` and `[30]`. -/
theorem claimC7_witness :
    (splitChunks ([10, 20, 30] : List ℕ) (chunkSizes 3 2)).flatten = [10, 20, 30] :=
  (claimC7_proved [10, 20, 30] ["A", "B"] (by decide)).1

/-! ### Claim C5: per-group aggregation -/

theorem meanOpt_map_round2 (vs : List (Option ℚ)) :
    (meanOpt vs).map round2 =
      if vs.reduceOption = [] then none
      else some (round2 (vs.reduceOption.sum / (vs.reduceOption.length : ℚ))) := by
  unfold meanOpt
  by_cases hx : vs.reduceOption = [] <;> simp [hx]

/-- Claim C5 (confirmed): for every group whose summary record is
produced, `Total_Students` is the group's row count,
`Total_Working_Days` is the working-days constant passed through, every
average field is the arithmetic mean of the corresponding numeric column
with NaN cells excluded from both count and sum, rounded to two decimal
places (`none` when no numeric value remains), and the attendance
percentage of each row is `Present / working_days * 100`. -/
theorem claimC5_proved (cname : String) (t : Table) (wd : ℚ) (r : SummaryRow)
    (h : summaryRow cname t wd = some r) :
    r.totalStudents = t.rows.length ∧
    r.totalWorkingDays = wd ∧
    (∀ vs, t.numCol "Present" = some vs → r.avgPresent =
      if vs.reduceOption = [] then none
      else some (round2 (vs.reduceOption.sum / (vs.reduceOption.length : ℚ)))) ∧
    (∀ vs, t.numCol "Absent" = some vs → r.avgAbsent =
      if vs.reduceOption = [] then none
      else some (round2 (vs.reduceOption.sum / (vs.reduceOption.length : ℚ)))) ∧
    (∀ vs, t.numCol "Late" = some vs → r.avgLate =
      if vs.reduceOption = [] then none
      else some (round2 (vs.reduceOption.sum / (vs.reduceOption.length : ℚ)))) ∧
    (∀ vs, t.numCol "Very_Late" = some vs → r.avgVeryLate =
      if vs.reduceOption = [] then none
      else some (round2 (vs.reduceOption.sum / (vs.reduceOption.length : ℚ)))) ∧
    (∀ vs, t.numCol "Attendance %" = some vs → r.avgAttendance =
      if vs.reduceOption = [] then none
      else some (round2 (vs.reduceOption.sum / (vs.reduceOption.length : ℚ)))) ∧
    (∀ (pvals : List (Option ℚ)) (i : ℕ) (p : ℚ), pvals[i]? = some (some p) →
      (attendanceCells pvals wd)[i]? = some (Cell.num (p / wd * 100))) := by
  unfold summaryRow at h
  split at h
  case _ p a l v att hP hA hL hV hAtt =>
    obtain rfl : _ = r := Option.some.inj h
    refine ⟨rfl, rfl, ?_, ?_, ?_, ?_, ?_, ?_⟩
    · intro vs hvs
      unfold colAvg at hP
      rw [hvs] at hP
      simp only [Option.map_some'] at hP
      show p = _
      rw [← Option.some.inj hP]
      exact meanOpt_map_round2 vs
    · intro vs hvs
      unfold colAvg at hA
      rw [hvs] at hA
      simp only [Option.map_some'] at hA
      show a = _
      rw [← Option.some.inj hA]
      exact meanOpt_map_round2 vs
    · intro vs hvs
      unfold colAvg at hL
      rw [hvs] at hL
      simp only [Option.map_some'] at hL
      show l = _
      rw [← Option.some.inj hL]
      exact meanOpt_map_round2 vs
    · intro vs hvs
      unfold colAvg at hV
      rw [hvs] at hV
      simp only [Option.map_some'] at hV
      show v = _
      rw [← Option.some.inj hV]
      exact meanOpt_map_round2 vs
    · intro vs hvs
      unfold colAvg at hAtt
      rw [hvs] at hAtt
      simp only [Option.map_some'] at hAtt
      show att = _
      rw [← Option.some.inj hAtt]
      exact meanOpt_map_round2 vs
    · intro pvals i p hp
      simp [attendanceCells, List.getElem?_map, hp]
  case _ => simp at h

/-- Claim C5 witness: the scenario of the claim: a group with
`Present = [8, 10]` and working days 10 summarizes to
`Total_Students = 2`, `Avg_Present = 9.00`,
`Avg_Attendance_Percentage = 90.00`. -/
theorem claimC5_witness :
    ∃ r : SummaryRow, summaryRow "A" c5table 10 = some r ∧
      r.totalStudents = 2 ∧ r.totalWorkingDays = 10 ∧
      r.avgPresent = some 9 ∧ r.avgAttendance = some 90 := by
  obtain ⟨r, hr⟩ : ∃ r, summaryRow "A" c5table 10 = some r := by
    refine ⟨?_, ?_⟩
    · exact { className := "A", totalStudents := 2, totalWorkingDays := 10,
              avgPresent := some 9, avgAbsent := some 1, avgLate := some 0,
              avgVeryLate := some 0, avgAttendance := some 90 }
    · with_unfolding_all rfl
  obtain ⟨h1, h2, h3, _, _, _, h7, _⟩ := claimC5_proved "A" c5table 10 r hr
  have hvsP : c5table.numCol "Present" = some [some 8, some 10] := by
    with_unfolding_all rfl
  have hvsA : c5table.numCol "Attendance %" = some [some 80, some 100] := by
    with_unfolding_all rfl
  refine ⟨r, hr, h1, h2, ?_, ?_⟩
  · rw [h3 [some 8, some 10] hvsP]
    with_unfolding_all rfl
  · rw [h7 [some 80, some 100] hvsA]
    with_unfolding_all rfl

/-! ### Claim C9: category-column strategy -/

theorem select_rows_length (t : Table) (names : List String) :
    (t.select names).rows.length = t.rows.length := by
  simp [Table.select]

theorem sum_map_zero {α : Type} (cl : List α) : (cl.map fun _ => (0 : ℕ)).sum = 0 := by
  induction cl with
  | nil => rfl
  | cons c cs ih => simp [ih]

theorem sum_map_add {α : Type} (f g : α → ℕ) :
    ∀ cl : List α, (cl.map fun c => f c + g c).sum = (cl.map f).sum + (cl.map g).sum := by
  intro cl
  induction cl with
  | nil => rfl
  | cons c cs ih => simp [ih]; omega

theorem keyIn_nil (k : Option String) : keyIn [] k = false := by
  cases k <;> rfl

theorem keyIn_cons (c : String) (cs : List String) (k : Option String) :
    keyIn (c :: cs) k = ((k = some c : Bool) || keyIn cs k) := by
  cases k with
  | none => rfl
  | some s =>
    simp only [keyIn, List.contains_cons]
    by_cases h : s = c
    · simp [h]
    · have : ¬ (some s = some c) := by simpa using h
      simp [h, this, fun hh : c = s => h hh.symm]

theorem single_hit_sum (k : Option String) :
    ∀ cl : List String, cl.Nodup →
      ((cl.map fun c => if k = some c then 1 else 0).sum : ℕ) =
        if keyIn cl k then 1 else 0 := by
  intro cl
  induction cl with
  | nil => intro _; simp [keyIn_nil]
  | cons c cs ih =>
    intro hnd
    obtain ⟨hc, hnd'⟩ := List.nodup_cons.mp hnd
    simp only [List.map_cons, List.sum_cons, ih hnd', keyIn_cons]
    by_cases hk : k = some c
    · subst hk
      have hnotin : keyIn cs (some c) = false := by
        simp [keyIn, hc]
      simp [hnotin]
    · simp [hk]

theorem grouped_count (cl : List String) (hnd : cl.Nodup) :
    ∀ l : List (List Cell × Option String),
      ((cl.map fun c => (l.filter fun p => decide (p.2 = some c)).length).sum : ℕ) =
        (l.filter fun p => keyIn cl p.2).length := by
  intro l
  induction l with
  | nil => simp [sum_map_zero]
  | cons p l ih =>
    have hsplit : ∀ c : String,
        ((p :: l).filter fun q => decide (q.2 = some c)).length =
          (if p.2 = some c then 1 else 0) + (l.filter fun q => decide (q.2 = some c)).length := by
      intro c
      by_cases hp : p.2 = some c <;> (simp [List.filter_cons, hp]; try omega)
    calc ((cl.map fun c => ((p :: l).filter fun q => decide (q.2 = some c)).length).sum : ℕ)
        = (cl.map fun c => (if p.2 = some c then 1 else 0) +
            (l.filter fun q => decide (q.2 = some c)).length).sum := by
          congr 1
          exact List.map_congr_left fun c _ => hsplit c
      _ = (cl.map fun c => if p.2 = some c then 1 else 0).sum +
            (cl.map fun c => (l.filter fun q => decide (q.2 = some c)).length).sum :=
          sum_map_add _ _ cl
      _ = (if keyIn cl p.2 then 1 else 0) + (l.filter fun q => keyIn cl q.2).length := by
          rw [single_hit_sum p.2 cl hnd, ih]
      _ = ((p :: l).filter fun q => keyIn cl q.2).length := by
          by_cases hp : keyIn cl p.2 <;> (simp [List.filter_cons, hp]; try omega)

theorem filter_length_split {α : Type} (q : α → Bool) :
    ∀ l : List α, (l.filter q).length + (l.filter fun x => !(q x)).length = l.length := by
  intro l
  induction l with
  | nil => rfl
  | cons x l ih =>
    by_cases hx : q x <;> simp [List.filter_cons, hx] <;> omega

theorem categoryGroups_sum (cols : List String) (rk : List (List Cell × Option String)) :
    ∀ cl' cl : List String,
      (((cl'.filterMap fun cname =>
          let grows := ((rk.filter fun p => keyIn cl p.2).filter fun p =>
            decide (p.2 = some cname)).map Prod.fst
          if grows.isEmpty then none
          else some (cname, Table.select { cols := cols, rows := grows } outputColumns)).map
            fun e => e.2.rows.length).sum : ℕ) =
        (cl'.map fun c => ((rk.filter fun p => keyIn cl p.2).filter fun p =>
          decide (p.2 = some c)).length).sum := by
  intro cl' cl
  induction cl' with
  | nil => rfl
  | cons c cs ih =>
    simp only [List.filterMap_cons]
    by_cases hempty : (((rk.filter fun p => keyIn cl p.2).filter fun p =>
        decide (p.2 = some c)).map Prod.fst).isEmpty
    · rw [if_pos hempty]
      have hlen : ((rk.filter fun p => keyIn cl p.2).filter fun p =>
          decide (p.2 = some c)).length = 0 := by
        have := List.isEmpty_iff.mp hempty
        simpa using congrArg List.length this
      simp only [List.map_cons, List.sum_cons, hlen, ih]
      omega
    · rw [if_neg hempty]
      simp only [List.map_cons, List.sum_cons, ih, select_rows_length]
      simp

/-- Claim C9 (amended): under the category-column strategy, each row's
group key is the alias-table image of its raw category value; a raw
value with no alias entry resolves to no key (not to an "unassigned"
sentinel) and such a row is excluded, as is every row whose resolved key
is not in the declared group list; and the sum of all group sizes plus
the number of excluded rows equals the input row count. -/
theorem claimC9_proved (cols : List String) (rk : List (List Cell × Option String))
    (classList : List String) (hnd : classList.Nodup) :
    ((categoryGroups cols rk classList).1.map fun e => e.2.rows.length).sum +
        (rk.filter fun p => !(keyIn classList p.2)).length = rk.length ∧
    (∀ (cm : List (Cell × String)) (v : Cell), (∀ e ∈ cm, v ≠ e.1) → alookup cm v = none) ∧
    (∀ p : List Cell × Option String, p.2 = none → keyIn classList p.2 = false) := by
  refine ⟨?_, ?_, ?_⟩
  · unfold categoryGroups
    rw [categoryGroups_sum cols rk classList classList]
    rw [grouped_count classList hnd (rk.filter fun p => keyIn classList p.2)]
    rw [List.filter_filter]
    have : (rk.filter fun p => keyIn classList p.2 && keyIn classList p.2) =
        rk.filter fun p => keyIn classList p.2 := by
      congr 1
      funext p
      cases keyIn classList p.2 <;> rfl
    rw [this]
    exact filter_length_split _ rk
  · intro cm v hv
    induction cm with
    | nil => rfl
    | cons e cm ih =>
      simp only [alookup, if_neg (hv e (List.mem_cons_self e cm))]
      exact ih fun d hd => hv d (List.mem_cons_of_mem e hd)
  · intro p hp
    rw [hp]
    rfl

/-! ### Claims C1 and C2: the inverted rename and the missing-column crash -/

/-- Claim C1 (code bug): on an upload whose `present` column (lowercase)
fuzzy-matches the canonical `Present` with score 600/7 > 60, the
`column_mapping` dict is keyed by the canonical name
(`{'Present': 'present'}`), so `df.rename(columns=column_mapping)` at
`src/app.py:534` renames nothing (no column is named `Present`), and
`df['Present']` at `src/app.py:548` then raises `KeyError`: the matched
column's data never reaches the output under the canonical label. -/
theorem claimC1_proved :
    mapOne "Present" cexTable1.cols 60 = some "present" ∧
    renameCols (columnMapping cexTable1.cols) cexTable1.cols = cexTable1.cols ∧
    processRealData cexTable1 ["GRADE 01"] none [] 10 = none :=
  ⟨by with_unfolding_all rfl, by with_unfolding_all rfl, by with_unfolding_all rfl⟩

/-- Claim C2 (code bug): on an upload with no column resembling
`Present` or `Absent`, the loop warns for each unmatched canonical field
and substitutes the literal expected name (`src/app.py:521-523`), but
processing then dies with an uncaught `KeyError` at `src/app.py:548`
(`df['Present']`) instead of producing blank-filled output. -/
theorem claimC2_proved :
    requiredWarnings cexTable2.cols =
      ["Could not find a matching column for Present",
       "Could not find a matching column for Absent"] ∧
    processRealData cexTable2 ["GRADE 01"] none [] 10 = none :=
  ⟨by with_unfolding_all rfl, by with_unfolding_all rfl⟩

/-! ### Claim C8: empty groups -/

/-- Claim C8, counterexample: under the positional fallback with one
data row and two classes, the second class receives an empty slice and
is nevertheless emitted, both as an output detail table with zero rows
and as a SummaryRow with `Total_Students = 0` — contradicting "a group
whose filtered row subset is empty … is excluded from both the output
tables and the SummaryRows" for every strategy. -/
theorem claimC8_counterexample :
    (processRealData cexTable8 ["GRADE 01", "GRADE 02"] none [] 10).map
        (fun out => out.1.map fun e => (e.1, e.2.rows.length)) =
      some [("GRADE 01", 1), ("GRADE 02", 0)] ∧
    ((processRealData cexTable8 ["GRADE 01", "GRADE 02"] none [] 10).bind
        fun out => summaryRows out.1 10).map
        (fun l => l.map fun r => (r.className, r.totalStudents)) =
      some [("GRADE 01", 1), ("GRADE 02", 0)] :=
  ⟨by with_unfolding_all rfl, by with_unfolding_all rfl⟩

/-- Claim C8 (amended): under the category-column strategy a group with
no rows is excluded from the output tables (every emitted group is
non-empty) and is reported with a warning; the positional fallback
emits empty groups (see the counterexample). -/
theorem claimC8_proved (cols : List String) (rk : List (List Cell × Option String))
    (classList : List String) :
    (∀ e ∈ (categoryGroups cols rk classList).1, e.2.rows ≠ []) ∧
    (∀ cname ∈ classList,
      ((rk.filter fun p => keyIn classList p.2).filter fun p =>
          decide (p.2 = some cname)).isEmpty = true →
        ("No students found for class: " ++ cname) ∈ (categoryGroups cols rk classList).2) := by
  constructor
  · intro e he
    unfold categoryGroups at he
    simp only at he
    obtain ⟨cname, _, heq⟩ := List.mem_filterMap.mp he
    by_cases hempty : (((rk.filter fun p => keyIn classList p.2).filter fun p =>
        decide (p.2 = some cname)).map Prod.fst).isEmpty
    · rw [if_pos hempty] at heq
      exact absurd heq (by simp)
    · rw [if_neg hempty] at heq
      obtain rfl := Option.some.inj heq
      simp only [Table.select]
      intro hnil
      have h1 : (List.map Prod.fst ((rk.filter fun p => keyIn classList p.2).filter
          fun p => decide (p.2 = some cname))) = [] := List.map_eq_nil_iff.mp hnil
      exact hempty (by rw [h1]; rfl)
  · intro cname hcname hempty
    unfold categoryGroups
    simp only
    apply List.mem_map_of_mem
    apply List.mem_filter.mpr
    exact ⟨hcname, hempty⟩

/-- Claim C8 witness: a concrete category-strategy run: the single
emitted group has a non-empty row list. -/
theorem claimC8_witness : (("A", Table.mk [] [[]]) : String × Table).2.rows ≠ [] :=
  (claimC8_proved ["X"] [([Cell.str "r"], some "A")] ["A"]).1 ("A", Table.mk [] [[]])
    (by with_unfolding_all decide)

/-! ### Claims C9 and C10: counterexamples and witnesses -/

/-- Claim C9, counterexample: a row whose raw course value `"X"` has no
alias entry resolves to no key (`alookup` returns `none`, pandas `map`
gives NaN) and the row is dropped by the `isin` filter — it is not kept
under an `"UNASSIGNED"` sentinel: with the declared group list
`["UNASSIGNED"]` the run produces no groups at all. -/
theorem claimC9_counterexample :
    alookup [(Cell.str "Y", "UNASSIGNED")] (Cell.str "X") = none ∧
    processRealData cexTable9 ["UNASSIGNED"] (some "Course")
        [(Cell.str "Y", "UNASSIGNED")] 10 =
      some ([], ["No students found for class: UNASSIGNED"]) :=
  ⟨rfl, by with_unfolding_all rfl⟩

/-- Claim C9 witness: the completeness equation of the amended claim at
a concrete input: one row keyed to class `"A"` and one unkeyed row give
group sizes summing to 1 plus 1 excluded row, equalling the 2 input
rows. -/
theorem claimC9_witness :
    ((categoryGroups ["X"] [([Cell.str "r1"], some "A"), ([Cell.str "r2"], none)] ["A"]).1.map
        fun e => e.2.rows.length).sum +
      ([([Cell.str "r1"], some "A"), ([Cell.str "r2"], (none : Option String))].filter
        fun p => !(keyIn ["A"] p.2)).length =
      ([([Cell.str "r1"], some "A"), ([Cell.str "r2"], (none : Option String))] :
        List (List Cell × Option String)).length :=
  (claimC9_proved ["X"] [([Cell.str "r1"], some "A"), ([Cell.str "r2"], none)] ["A"]
    (by decide)).1

/-- Claim C10, counterexample: with an upload in which no column
fuzzy-matches `Late` above the threshold (all scores ≤ 60) and the
positional fallback producing an empty second group, that group's
SummaryRow carries `Avg_Late = NaN` (`none`), not `0.00` — so "the
group average Avg_Late is 0.00 in every SummaryRow" fails for the
SummaryRow of an empty group. -/
theorem claimC10_counterexample :
    (cexTable8.cols.all fun c => decide (score "Late" c ≤ 60)) = true ∧
    ((processRealData cexTable8 ["GRADE 01", "GRADE 02"] none [] 10).bind
        fun out => summaryRows out.1 10).map
        (fun l => l.map fun r => (r.className, r.avgLate)) =
      some [("GRADE 01", some 0), ("GRADE 02", none)] :=
  ⟨by with_unfolding_all rfl, by with_unfolding_all rfl⟩

/-! ### Claim C10: machinery — no column can become `Late`/`Very_Late` -/

theorem extractGo_fst_mem (q : String) :
    ∀ (l : List String) (b : String × ℚ),
      (extractGo q b l).1 = b.1 ∨ (extractGo q b l).1 ∈ l := by
  intro l
  induction l with
  | nil => intro b; left; rfl
  | cons c cs ih =>
    intro b
    simp only [extractGo]
    by_cases h : score q c > b.2
    · rw [if_pos h]
      rcases ih (c, score q c) with h1 | h1
      · right; rw [h1]; exact List.mem_cons_self c cs
      · right; exact List.mem_cons_of_mem c h1
    · rw [if_neg h]
      rcases ih b with h1 | h1
      · left; exact h1
      · right; exact List.mem_cons_of_mem c h1

theorem mapOne_mem {t : String} {avail : List String} {th : ℚ} {c : String}
    (h : mapOne t avail th = some c) : c ∈ avail := by
  unfold mapOne at h
  cases avail with
  | nil => simp [extractOne] at h
  | cons x xs =>
    simp only [extractOne] at h
    split at h
    · obtain rfl := Option.some.inj h
      rcases extractGo_fst_mem t xs (x, score t x) with h1 | h1
      · rw [h1]; exact List.mem_cons_self x xs
      · exact List.mem_cons_of_mem x h1
    · exact absurd h (by simp)

theorem lookup_mem {β : Type} [BEq β] [LawfulBEq β] :
    ∀ (m : List (β × String)) (a : β) (b : String),
      List.lookup a m = some b → (a, b) ∈ m := by
  intro m
  induction m with
  | nil => intro a b h; simp [List.lookup] at h
  | cons kv m ih =>
    intro a b h
    simp only [List.lookup] at h
    by_cases hk : a == kv.1
    · simp only [hk] at h
      obtain rfl := Option.some.inj h
      have ha : a = kv.1 := eq_of_beq hk
      subst ha
      exact List.mem_cons_self kv m
    · simp only [Bool.not_eq_true] at hk
      simp only [hk] at h
      exact List.mem_cons_of_mem kv (ih a b h)

theorem columnMapping_value_mem (cols : List String) :
    ∀ kv ∈ columnMapping cols, kv.2 ∈ cols ∨ kv.2 ∈ requiredColumns := by
  intro kv hkv
  rcases List.mem_append.mp hkv with h | h
  · unfold requiredMapping at h
    obtain ⟨r, hr, heq⟩ := List.mem_map.mp h
    cases hm : mapOne r cols 60 with
    | none =>
      right
      rw [← heq]
      simpa [hm] using hr
    | some c =>
      left
      rw [← heq]
      simpa [hm] using mapOne_mem hm
  · unfold optionalMapping at h
    obtain ⟨o, _, heq⟩ := List.mem_filterMap.mp h
    cases hm : mapOne o cols 60 with
    | none => rw [hm] at heq; simp at heq
    | some c =>
      left
      rw [hm] at heq
      obtain rfl := Option.some.inj (by simpa using heq)
      exact mapOne_mem hm

theorem not_mem_of_low_score (cols : List String) (x : String)
    (h : ∀ c ∈ cols, score x c ≤ 60) : x ∉ cols := by
  intro hmem
  have := h x hmem
  rw [score_self] at this
  norm_num at this

theorem rename_not_mem (cols : List String) (x : String) (hx : x ∉ cols)
    (hreq : x ∉ requiredColumns) : x ∉ renameCols (columnMapping cols) cols := by
  intro hmem
  unfold renameCols at hmem
  obtain ⟨c, hc, heq⟩ := List.mem_map.mp hmem
  cases hl : List.lookup c (columnMapping cols) with
  | none =>
    rw [hl] at heq
    simp at heq
    exact hx (heq ▸ hc)
  | some v =>
    rw [hl] at heq
    simp at heq
    have hv := columnMapping_value_mem cols (c, v) (lookup_mem _ c v hl)
    rcases hv with h1 | h1
    · exact hx (heq ▸ h1)
    · exact hreq (heq ▸ h1)

theorem findIdx?_col_spec {cols : List String} {name : String} {j : ℕ}
    (h : cols.findIdx? (fun c => c == name) = some j) :
    j < cols.length ∧ cols.getD j "" = name := by
  rw [List.findIdx?_eq_some_iff_getElem] at h
  obtain ⟨hlt, hp, _⟩ := h
  refine ⟨hlt, ?_⟩
  have heq : cols[j] = name := eq_of_beq hp
  rw [List.getD_eq_getElem?_getD, List.getElem?_eq_getElem hlt]
  simpa using heq

theorem zeroCol_mem_cols {t : Table} {name : String} (h : zeroCol t name) :
    name ∈ t.cols := by
  obtain ⟨j, hj, _⟩ := h
  obtain ⟨hlt, hname⟩ := findIdx?_col_spec hj
  rw [← hname, List.getD_eq_getElem?_getD, List.getElem?_eq_getElem hlt]
  exact List.getElem_mem hlt

theorem setCol_rows_length (t : Table) (name : String) (cells : List Cell) :
    (t.setCol name cells).rows.length = min t.rows.length cells.length := by
  unfold Table.setCol
  cases t.findCol name <;> simp

theorem WF_setCol (t : Table) (name : String) (cells : List Cell) (hwf : t.WF) :
    (t.setCol name cells).WF := by
  unfold Table.setCol
  cases h : t.findCol name with
  | some i =>
    intro r hr
    obtain ⟨p, hp, rfl⟩ := List.mem_map.mp hr
    simp only [List.length_set]
    exact hwf p.1 (List.of_mem_zip hp).1
  | none =>
    intro r hr
    obtain ⟨p, hp, rfl⟩ := List.mem_map.mp hr
    have := hwf p.1 (List.of_mem_zip hp).1
    simp [this]

theorem zeroCol_setCol {t : Table} {name : String} (other : String) (cells : List Cell)
    (hne : other ≠ name) (hwf : t.WF) (h : zeroCol t name) :
    zeroCol (t.setCol other cells) name := by
  obtain ⟨j, hj, hcells⟩ := h
  obtain ⟨hjlt, hjname⟩ := findIdx?_col_spec hj
  unfold Table.setCol
  cases hfind : t.findCol other with
  | some i =>
    obtain ⟨hilt, hiname⟩ := findIdx?_col_spec hfind
    have hij : i ≠ j := by
      intro hij
      rw [hij] at hiname
      exact hne (hiname.symm.trans hjname)
    refine ⟨j, hj, ?_⟩
    intro r hr
    obtain ⟨p, hp, rfl⟩ := List.mem_map.mp hr
    rw [List.getD_eq_getElem?_getD, List.getElem?_set_ne hij,
      ← List.getD_eq_getElem?_getD]
    exact hcells p.1 (List.of_mem_zip hp).1
  | none =>
    refine ⟨j, ?_, ?_⟩
    · rw [List.findIdx?_append, hj]
      rfl
    · intro r hr
      obtain ⟨p, hp, rfl⟩ := List.mem_map.mp hr
      have hmem := (List.of_mem_zip hp).1
      have hlen : j < p.1.length := by
        rw [hwf p.1 hmem]
        exact hjlt
      rw [List.getD_eq_getElem?_getD, List.getElem?_append_left hlen,
        ← List.getD_eq_getElem?_getD]
      exact hcells p.1 hmem

theorem zeroCol_rows_sub {cols : List String} {rows rows' : List (List Cell)} {name : String}
    (hsub : ∀ r ∈ rows', r ∈ rows) (h : zeroCol ⟨cols, rows⟩ name) :
    zeroCol ⟨cols, rows'⟩ name := by
  obtain ⟨j, hj, hcells⟩ := h
  exact ⟨j, hj, fun r hr => hcells r (hsub r hr)⟩

theorem WF_rows_sub {cols : List String} {rows rows' : List (List Cell)}
    (hsub : ∀ r ∈ rows', r ∈ rows) (hwf : Table.WF ⟨cols, rows⟩) :
    Table.WF ⟨cols, rows'⟩ :=
  fun r hr => hwf r (hsub r hr)

theorem zeroCol_select {t : Table} {name : String} (names : List String)
    (hmem : name ∈ names) (h : zeroCol t name) :
    zeroCol (t.select names) name := by
  obtain ⟨j, hj, hcells⟩ := h
  have hnamecols : name ∈ t.cols := zeroCol_mem_cols ⟨j, hj, hcells⟩
  have hpres : name ∈ names.filter fun n => t.cols.contains n := by
    apply List.mem_filter.mpr
    refine ⟨hmem, ?_⟩
    simpa using hnamecols
  have hsome : ((names.filter fun n => t.cols.contains n).findIdx?
      (fun c => c == name)).isSome := by
    rw [List.findIdx?_isSome]
    apply List.any_eq_true.mpr
    exact ⟨name, hpres, by simp⟩
  obtain ⟨j', hj'⟩ := Option.isSome_iff_exists.mp hsome
  obtain ⟨hj'lt, hj'name⟩ := findIdx?_col_spec hj'
  unfold Table.select
  refine ⟨j', hj', ?_⟩
  intro r' hr'
  obtain ⟨r, hr, rfl⟩ := List.mem_map.mp hr'
  rw [List.getD_eq_getElem?_getD, List.getElem?_map]
  rw [List.getElem?_eq_getElem hj'lt]
  simp only [Option.map_some', Option.getD_some]
  have hgetname : (names.filter fun n => t.cols.contains n)[j'] = name := by
    have := hj'name
    rwa [List.getD_eq_getElem?_getD, List.getElem?_eq_getElem hj'lt,
      Option.getD_some] at this
  rw [hgetname]
  show r.getD ((t.findCol name).getD 0) Cell.blank = Cell.num 0
  have : t.findCol name = some j := hj
  rw [this, Option.getD_some]
  exact hcells r hr

theorem zeroCol_getCol {t : Table} {name : String} (h : zeroCol t name) :
    t.getCol name = some (List.replicate t.rows.length (Cell.num 0)) := by
  obtain ⟨j, hj, hcells⟩ := h
  unfold Table.getCol
  have hfind : t.findCol name = some j := hj
  rw [hfind, Option.map_some']
  congr 1
  have hlen : (t.rows.map fun r => r.getD j Cell.blank).length = t.rows.length := by simp
  rw [← hlen]
  apply List.eq_replicate_of_mem
  intro b hb
  obtain ⟨r, hr, rfl⟩ := List.mem_map.mp hb
  exact hcells r hr

theorem findCol_eq_none {t : Table} {name : String} (h : name ∉ t.cols) :
    t.findCol name = none := by
  unfold Table.findCol
  rw [List.findIdx?_eq_none_iff]
  intro x hx
  rw [beq_eq_false_iff_ne]
  rintro rfl
  exact h hx

theorem getCol_eq_none {t : Table} {name : String} (h : name ∉ t.cols) :
    t.getCol name = none := by
  unfold Table.getCol
  rw [findCol_eq_none h]
  rfl

theorem getCol_length {t : Table} {name : String} {cells : List Cell}
    (h : t.getCol name = some cells) : cells.length = t.rows.length := by
  unfold Table.getCol at h
  cases hf : t.findCol name with
  | none => rw [hf] at h; exact absurd h (by simp)
  | some j =>
    rw [hf] at h
    simp only [Option.map_some'] at h
    obtain rfl := (Option.some.inj h).symm
    simp

theorem setCol_of_findCol_none {t : Table} {name : String} {cells : List Cell}
    (h : t.findCol name = none) :
    t.setCol name cells =
      { cols := t.cols ++ [name], rows := (t.rows.zip cells).map fun p => p.1 ++ [p.2] } := by
  unfold Table.setCol
  rw [h]

theorem setCol_append_zero (t : Table) (name : String) (hwf : t.WF)
    (hnot : name ∉ t.cols) :
    zeroCol (t.setCol name (t.rows.map fun _ => Cell.num 0)) name ∧
    (t.setCol name (t.rows.map fun _ => Cell.num 0)).cols = t.cols ++ [name] ∧
    (t.setCol name (t.rows.map fun _ => Cell.num 0)).rows.length = t.rows.length := by
  have hfind : t.findCol name = none := findCol_eq_none hnot
  rw [setCol_of_findCol_none hfind]
  refine ⟨⟨t.cols.length, ?_, ?_⟩, rfl, by simp⟩
  · show (t.cols ++ [name]).findIdx? (fun c => c == name) = some t.cols.length
    rw [List.findIdx?_append]
    rw [Table.findCol] at hfind
    rw [hfind]
    simp
  · intro r hr
    obtain ⟨p, hp, rfl⟩ := List.mem_map.mp hr
    have h1 := (List.of_mem_zip hp).1
    have h2 := (List.of_mem_zip hp).2
    obtain ⟨x, hx, heq⟩ := List.mem_map.mp h2
    have hlen : p.1.length = t.cols.length := hwf p.1 h1
    rw [← heq, List.getD_eq_getElem?_getD, ← hlen, List.getElem?_concat_length]
    rfl

theorem addLate_step2_spec (t1 : Table) (hwf1 : t1.WF) :
    (addLateStep2 t1).WF ∧ (addLateStep2 t1).rows.length = t1.rows.length ∧
    (zeroCol t1 "Late" → zeroCol (addLateStep2 t1) "Late") ∧
    ("Very_Late" ∉ t1.cols → "Very Late" ∉ t1.cols → zeroCol (addLateStep2 t1) "Very_Late") := by
  unfold addLateStep2
  by_cases hv : t1.cols.contains "Very_Late"
  · simp only [if_pos hv]
    exact ⟨hwf1, by trivial, fun hz => hz, fun hno _ => absurd (by simpa using hv) hno⟩
  · simp only [if_neg hv]
    have hvnot1 : "Very_Late" ∉ t1.cols := fun hmem => hv (by simpa using hmem)
    cases hvl : t1.getCol "Very Late" with
    | some vl =>
      refine ⟨WF_setCol t1 _ _ hwf1, ?_, fun hz => zeroCol_setCol "Very_Late" vl
        (by decide) hwf1 hz, ?_⟩
      · rw [setCol_rows_length]
        have := getCol_length hvl
        omega
      · intro _ hno2
        exact absurd hvl (by rw [getCol_eq_none hno2]; simp)
    | none =>
      obtain ⟨hz2, _, hlen2⟩ := setCol_append_zero t1 "Very_Late" hwf1 hvnot1
      exact ⟨WF_setCol t1 _ _ hwf1, hlen2, fun hz => zeroCol_setCol "Very_Late" _
        (by decide) hwf1 hz, fun _ _ => hz2⟩

theorem addLateCols_spec (t : Table) (hwf : t.WF) :
    (addLateCols t).WF ∧ (addLateCols t).rows.length = t.rows.length ∧
    ("Late" ∉ t.cols → zeroCol (addLateCols t) "Late") ∧
    ("Very_Late" ∉ t.cols → "Very Late" ∉ t.cols → zeroCol (addLateCols t) "Very_Late") := by
  unfold addLateCols
  by_cases hc : t.cols.contains "Late"
  · have ht1 : addLateStep1 t = t := by
      unfold addLateStep1
      rw [if_pos hc]
    rw [ht1]
    obtain ⟨w1, w2, _, w4⟩ := addLate_step2_spec t hwf
    have hlmem : "Late" ∈ t.cols := by simpa using hc
    exact ⟨w1, w2, fun hno => absurd hlmem hno, w4⟩
  · have hlnot : "Late" ∉ t.cols := fun hmem => hc (by simpa using hmem)
    have ht1 : addLateStep1 t = t.setCol "Late" (t.rows.map fun _ => Cell.num 0) := by
      unfold addLateStep1
      rw [if_neg hc]
    rw [ht1]
    obtain ⟨hz1, hcols1, hlen1⟩ := setCol_append_zero t "Late" hwf hlnot
    set t1 := t.setCol "Late" (t.rows.map fun _ => Cell.num 0) with ht1def
    have hwf1 : t1.WF := WF_setCol t _ _ hwf
    obtain ⟨w1, w2, w3, w4⟩ := addLate_step2_spec t1 hwf1
    refine ⟨w1, by omega, fun _ => w3 hz1, ?_⟩
    intro hno hno2
    apply w4
    · rw [hcols1]
      intro hmem
      rcases List.mem_append.mp hmem with h1 | h1
      · exact hno h1
      · simp at h1
    · rw [hcols1]
      intro hmem
      rcases List.mem_append.mp hmem with h1 | h1
      · exact hno2 h1
      · simp at h1

theorem toNumCells_replicate (k : ℕ) :
    toNumCells (List.replicate k (Cell.num 0)) = some (List.replicate k (some (0 : ℚ))) := by
  induction k with
  | zero => rfl
  | succ k ih => simp [List.replicate_succ, toNumCells, ih]

theorem reduceOption_replicate (k : ℕ) :
    (List.replicate k (some (0 : ℚ))).reduceOption = List.replicate k (0 : ℚ) := by
  induction k with
  | zero => rfl
  | succ k ih => simp [List.replicate_succ, List.reduceOption_cons_of_some, ih]

theorem round2_zero : round2 0 = 0 := by
  unfold round2 roundHalfEven
  norm_num

theorem colAvg_of_zeroCol (t : Table) (name : String) (h : zeroCol t name)
    (hne : t.rows ≠ []) : colAvg t name = some (some 0) := by
  unfold colAvg Table.numCol
  rw [zeroCol_getCol h, Option.some_bind, toNumCells_replicate]
  simp only [Option.map_some']
  congr 1
  unfold meanOpt
  rw [reduceOption_replicate]
  have hk : t.rows.length ≠ 0 := fun h0 => hne (List.length_eq_zero.mp h0)
  have hnotempty : ¬ (List.replicate t.rows.length (0 : ℚ)).isEmpty = true := by
    simp [List.isEmpty_iff, hk]
  rw [if_neg hnotempty]
  simp only [Option.map_some']
  have hsum : (List.replicate t.rows.length (0 : ℚ)).sum = 0 := by simp
  rw [hsum, zero_div, round2_zero]

theorem summaryRow_fields {cname : String} {t : Table} {wd : ℚ} {r0 : SummaryRow}
    (hs : summaryRow cname t wd = some r0)
    (hl : colAvg t "Late" = some (some 0))
    (hv : colAvg t "Very_Late" = some (some 0)) :
    r0.avgLate = some 0 ∧ r0.avgVeryLate = some 0 := by
  unfold summaryRow at hs
  split at hs
  case _ p a l v att hP hA hL hV hAtt =>
    obtain rfl := Option.some.inj hs
    constructor
    · show l = some 0
      rw [hl] at hL
      exact (Option.some.inj hL).symm
    · show v = some 0
      rw [hv] at hV
      exact (Option.some.inj hV).symm
  case _ => simp at hs

theorem splitChunks_mem {α : Type} :
    ∀ (sizes : List ℕ) (rows : List α) (c : List α), c ∈ splitChunks rows sizes →
      ∀ r ∈ c, r ∈ rows := by
  intro sizes
  induction sizes with
  | nil => intro rows c hc; simp [splitChunks] at hc
  | cons k ks ih =>
    intro rows c hc r hr
    simp only [splitChunks] at hc
    rcases List.mem_cons.mp hc with h | h
    · subst h
      exact List.mem_of_mem_take hr
    · exact List.mem_of_mem_drop (ih (rows.drop k) c h r hr)

theorem WF_rename (df : Table) (hwf : df.WF) :
    Table.WF ⟨renameCols (columnMapping df.cols) df.cols, df.rows⟩ := by
  intro r hr
  simp only [renameCols, List.length_map]
  exact hwf r hr

theorem processRealData_zeroCol (df : Table) (classList : List String) (cc : Option String)
    (cm : List (Cell × String)) (wd : ℚ) (out : List (String × Table) × List String)
    (name : String) (hwf : df.WF)
    (hn1 : name ≠ "Working_Days") (hn2 : name ≠ "Attendance %") (hn3 : name ≠ "Class")
    (hmem : name ∈ outputColumns)
    (hz : zeroCol (addLateCols ⟨renameCols (columnMapping df.cols) df.cols, df.rows⟩) name)
    (hout : processRealData df classList cc cm wd = some out) :
    ∀ e ∈ out.1, zeroCol e.2 name := by
  have hwf1 : Table.WF ⟨renameCols (columnMapping df.cols) df.cols, df.rows⟩ :=
    WF_rename df hwf
  simp only [processRealData] at hout
  set df1 : Table := ⟨renameCols (columnMapping df.cols) df.cols, df.rows⟩ with hdf1
  set df2 := addLateCols df1 with hdf2
  have hwf2 : df2.WF := (addLateCols_spec df1 hwf1).1
  set df3 := df2.setCol "Working_Days" (df2.rows.map fun _ => Cell.num wd) with hdf3
  have hz3 : zeroCol df3 name := zeroCol_setCol _ _ (Ne.symm hn1) hwf2 hz
  have hwf3 : df3.WF := WF_setCol _ _ _ hwf2
  split at hout
  case _ => exact absurd hout (by simp)
  case _ pvals hpv =>
    set df4 := df3.setCol "Attendance %" (attendanceCells pvals wd) with hdf4
    have hz4 : zeroCol df4 name := zeroCol_setCol _ _ (Ne.symm hn2) hwf3 hz3
    have hwf4 : df4.WF := WF_setCol _ _ _ hwf3
    split at hout
    case _ ccn q qs =>
      split at hout
      case _ => exact absurd hout (by simp)
      case _ raw hraw =>
        obtain rfl := Option.some.inj hout
        intro e he
        simp only [categoryGroups] at he
        set keys := raw.map (alookup (q :: qs)) with hkeys
        set df5 := df4.setCol "Class" (keys.map keyCell) with hdf5
        have hz5 : zeroCol df5 name := zeroCol_setCol _ _ (Ne.symm hn3) hwf4 hz4
        obtain ⟨cname, hcname, hite⟩ := List.mem_filterMap.mp he
        by_cases hempty : ((((df5.rows.zip keys).filter fun p => keyIn classList p.2).filter
            fun p => decide (p.2 = some cname)).map Prod.fst).isEmpty
        · rw [if_pos hempty] at hite
          exact absurd hite (by simp)
        · rw [if_neg hempty] at hite
          obtain rfl := Option.some.inj hite
          show zeroCol (Table.select _ outputColumns) name
          apply zeroCol_select outputColumns hmem
          apply zeroCol_rows_sub _ hz5
          intro r hr
          obtain ⟨p, hp, rfl⟩ := List.mem_map.mp hr
          have hp1 := List.mem_filter.mp hp
          have hp2 := List.mem_filter.mp hp1.1
          exact (List.of_mem_zip hp2.1).1
    case _ =>
      split at hout
      case _ => exact absurd hout (by simp)
      case _ c cs =>
        obtain rfl := Option.some.inj hout
        intro e he
        simp only [positionalGroups] at he
        obtain ⟨p, hp, rfl⟩ := List.mem_map.mp he
        have hchunk := (List.of_mem_zip hp).2
        have hsub : ∀ r ∈ p.2, r ∈ df4.rows :=
          splitChunks_mem (chunkSizes df4.rows.length (c :: cs).length) df4.rows p.2 hchunk
        have hzc : zeroCol ⟨df4.cols, p.2⟩ name := zeroCol_rows_sub hsub hz4
        have hwfc : Table.WF ⟨df4.cols, p.2⟩ := WF_rows_sub hsub hwf4
        show zeroCol (Table.select _ outputColumns) name
        apply zeroCol_select outputColumns hmem
        exact zeroCol_setCol _ _ (Ne.symm hn3) hwfc hzc

/-- Claim C10 (amended): for every well-formed uploaded table in which
no column fuzzy-matches `Late` (respectively `Very_Late`/`Very Late`)
with score above the threshold 60, every successful processing run
carries a `Late` (respectively `Very_Late`) column that is `0` in every
output detail row, and in the SummaryRow of every group with at least
one row the average `Avg_Late` (respectively `Avg_Very_Late`) is `0.00`
(an empty emitted group's SummaryRow instead carries NaN averages, see
the counterexample). -/
theorem claimC10_proved (df : Table) (classList : List String) (cc : Option String)
    (cm : List (Cell × String)) (wd : ℚ) (out : List (String × Table) × List String)
    (hwf : df.WF)
    (hL : ∀ c ∈ df.cols, score "Late" c ≤ 60)
    (hV1 : ∀ c ∈ df.cols, score "Very_Late" c ≤ 60)
    (hV2 : ∀ c ∈ df.cols, score "Very Late" c ≤ 60)
    (hout : processRealData df classList cc cm wd = some out) :
    ∀ e ∈ out.1,
      e.2.getCol "Late" = some (List.replicate e.2.rows.length (Cell.num 0)) ∧
      e.2.getCol "Very_Late" = some (List.replicate e.2.rows.length (Cell.num 0)) ∧
      ∀ r0 : SummaryRow, e.2.rows ≠ [] → summaryRow e.1 e.2 wd = some r0 →
        r0.avgLate = some 0 ∧ r0.avgVeryLate = some 0 := by
  have hLn : "Late" ∉ df.cols := not_mem_of_low_score df.cols "Late" hL
  have hVn : "Very_Late" ∉ df.cols := not_mem_of_low_score df.cols "Very_Late" hV1
  have hV2n : "Very Late" ∉ df.cols := not_mem_of_low_score df.cols "Very Late" hV2
  have hwf1 := WF_rename df hwf
  have hLn1 : "Late" ∉ renameCols (columnMapping df.cols) df.cols :=
    rename_not_mem df.cols "Late" hLn (by decide)
  have hVn1 : "Very_Late" ∉ renameCols (columnMapping df.cols) df.cols :=
    rename_not_mem df.cols "Very_Late" hVn (by decide)
  have hV2n1 : "Very Late" ∉ renameCols (columnMapping df.cols) df.cols :=
    rename_not_mem df.cols "Very Late" hV2n (by decide)
  obtain ⟨_, _, hzLf, hzVf⟩ :=
    addLateCols_spec ⟨renameCols (columnMapping df.cols) df.cols, df.rows⟩ hwf1
  have hzL := hzLf hLn1
  have hzV := hzVf hVn1 hV2n1
  have hL' := processRealData_zeroCol df classList cc cm wd out "Late" hwf
    (by decide) (by decide) (by decide) (by decide) hzL hout
  have hV' := processRealData_zeroCol df classList cc cm wd out "Very_Late" hwf
    (by decide) (by decide) (by decide) (by decide) hzV hout
  intro e he
  refine ⟨zeroCol_getCol (hL' e he), zeroCol_getCol (hV' e he), ?_⟩
  intro r0 hne hs
  exact summaryRow_fields hs (colAvg_of_zeroCol _ _ (hL' e he) hne)
    (colAvg_of_zeroCol _ _ (hV' e he) hne)

/-- Claim C10 witness: the amended claim at a concrete upload with no
`Late`-like column: the emitted detail table carries a `Late` column
equal to `[0]`. -/
theorem claimC10_witness :
    c10table.getCol "Late" = some (List.replicate 1 (Cell.num 0)) := by
  have h := claimC10_proved cexTable8 ["GRADE 01"] none [] 10
    ([("GRADE 01", c10table)], ["No course column detected. Using manual class assignment."])
    (by unfold Table.WF; decide) (by with_unfolding_all decide) (by with_unfolding_all decide)
    (by with_unfolding_all decide) (by with_unfolding_all rfl)
  exact (h ("GRADE 01", c10table) (List.mem_singleton.mpr rfl)).1

end AttendanceApp
